import Mathlib

/-!
Verification development for the Nuance validator core: the discovery,
queueing, processing, caching and score-aggregation engine described in
the repository documentation.  The Python implementation itself
(packages `nuance` and `neurons`) is not shipped with the documentation
tree, so each operation is modelled from the specification text and the
design documents (docs/index.md, docs/dev/processing_flow.md,
docs/dev/validator.md, docs/dev/db_schema.md,
docs/dev/packages/processing_package.md).
-/

namespace Nuance

/-- Processing status of a Post or an Interaction.
State machine shape from the spec: `pending` transitions to one of
`accepted`, `rejected`, `error`, all three terminal. -/
inductive ProcessingStatus where
  | pending
  | accepted
  | rejected
  | error
deriving DecidableEq, Repr

/-- A status is terminal when it is `accepted`, `rejected` or `error`. -/
def ProcessingStatus.isTerminal : ProcessingStatus → Bool
  | .pending => false
  | _ => true

/-! ## Processor / Pipeline framework -/

/-- Transient value produced by pipeline execution: `status`, a
human-readable `reason`, and a pipeline-specific `output` payload. -/
structure ProcessingResult (α : Type) where
  status : ProcessingStatus
  reason : String
  output : α
deriving DecidableEq, Repr

/-- A processor is the capability `process(input) -> ProcessingResult`;
here the input and output payloads share one type so that outputs can be
threaded through a pipeline. -/
def Processor (α : Type) : Type := α → ProcessingResult α

/-- Modelled from the spec: `Pipeline.process` driver, instrumented with
a trace of the indices of the processors actually invoked.  Processors
run in registration order; as soon as one returns a non-accepting
status the pipeline stops and returns that result; if all accept, the
result of the last processor is returned, its output being the
accumulation of every contribution.  The Python `processing.Pipeline`
class is not in the documentation tree. -/
def pipelineRunAux {α : Type} (ps : List (Processor α)) (acc : ProcessingResult α)
    (idx : Nat) : ProcessingResult α × List Nat :=
  match ps with
  | [] => (acc, [])
  | p :: rest =>
    let r := p acc.output
    if r.status = .accepted then
      let next := pipelineRunAux rest r (idx + 1)
      (next.1, idx :: next.2)
    else
      (r, [idx])

/-- Run a pipeline on an input: the seed result is an accepting result
carrying the raw input as output.  Returns the final
`ProcessingResult` together with the trace of invoked processor
indices. -/
def pipelineProcess {α : Type} (ps : List (Processor α)) (input : α) :
    ProcessingResult α × List Nat :=
  pipelineRunAux ps ⟨.accepted, "", input⟩ 0

/-- Every processor in the list, run sequentially on the threaded
output, returns an accepting status. -/
def allAccept {α : Type} (ps : List (Processor α)) (input : α) : Bool :=
  match ps with
  | [] => true
  | p :: rest => (p input).status = .accepted && allAccept rest ((p input).output)

/-- The accumulated output after threading the input through every
processor of the list in order. -/
def threadOutput {α : Type} (ps : List (Processor α)) (input : α) : α :=
  ps.foldl (fun o p => (p o).output) input

/-! ## Interaction processing rule and worker transition system -/

/-- Modelled from the spec: the three-outcome rule of the Interaction
Processing Worker (docs/dev/processing_flow.md).  Given the parent
Post status, either run the interaction pipeline (parent `accepted`,
result is the evaluation verdict and the pipeline IS invoked), resolve
the interaction to `rejected` without invoking the pipeline (parent
`rejected` or `error`), or defer (parent `pending`, outcome `none`).
The Python worker loop is not in the documentation tree.  The boolean
records whether content evaluation was invoked. -/
def interactionStepOutcome (parentStatus evalStatus : ProcessingStatus) :
    Option (ProcessingStatus × Bool) :=
  match parentStatus with
  | .accepted => some (evalStatus, true)
  | .rejected => some (.rejected, false)
  | .error => some (.rejected, false)
  | .pending => none

/-- Global state of the validator processing machine: status of each
Post and each Interaction (by numeric id), plus the log of interaction
ids for which the interaction pipeline (content evaluation) was
invoked. -/
structure ValState where
  postStatus : Nat → ProcessingStatus
  interStatus : Nat → ProcessingStatus
  evals : List Nat

/-- Start state: every Post and Interaction is `pending` and no
content evaluation has happened. -/
def startState : ValState :=
  { postStatus := fun _ => .pending
    interStatus := fun _ => .pending
    evals := [] }

/-- Modelled from the spec: one step of the concurrent validator
machine, parameterized by the parent-post map `tgt` (each interaction
id points at its target post id).  A post worker resolves a pending
post to a terminal status; an interaction worker resolves a pending
interaction according to `interactionStepOutcome` applied to the
current status of its parent post. -/
inductive Step (tgt : Nat → Nat) : ValState → ValState → Prop where
  | post_resolve (p : Nat) (st : ProcessingStatus) (s : ValState)
      (hpending : s.postStatus p = .pending)
      (hterm : st.isTerminal = true) :
      Step tgt s
        { postStatus := fun q => if q = p then st else s.postStatus q
          interStatus := s.interStatus
          evals := s.evals }
  | inter_resolve (i : Nat) (evalStatus : ProcessingStatus) (res : ProcessingStatus)
      (inv : Bool) (s : ValState)
      (hpending : s.interStatus i = .pending)
      (hterm : evalStatus.isTerminal = true)
      (hout : interactionStepOutcome (s.postStatus (tgt i)) evalStatus = some (res, inv)) :
      Step tgt s
        { postStatus := s.postStatus
          interStatus := fun j => if j = i then res else s.interStatus j
          evals := if inv then i :: s.evals else s.evals }

/-- States reachable from the start state by the validator machine. -/
inductive Reachable (tgt : Nat → Nat) : ValState → Prop where
  | start : Reachable tgt startState
  | step {s t : ValState} : Reachable tgt s → Step tgt s t → Reachable tgt t

/-! ## Dependency-aware cache -/

/-- In-memory dependency-aware cache: `processedPosts` maps a post id
to its recorded outcome (status and output payload), `waiting` maps a
post id to the interaction ids blocked on it, and `interactionQueue`
is the interaction queue the cache resubmits into. -/
structure DepCache where
  processedPosts : List (Nat × (ProcessingStatus × List String))
  waiting : List (Nat × List Nat)
  interactionQueue : List Nat

/-- Modelled from the spec: `recordPostResult(post_id, status, output)`
stores the outcome in the processed-post cache; then every interaction
listed in `WaitingInteractions[post_id]` is resubmitted to the
Interaction Queue and the waiting entry is cleared.  The Python cache
is not in the documentation tree. -/
def recordPostResult (postId : Nat) (status : ProcessingStatus)
    (output : List String) (c : DepCache) : DepCache :=
  let waiters := ((c.waiting.lookup postId).getD [])
  { processedPosts :=
      (postId, (status, output)) :: c.processedPosts.filter (fun e => e.1 ≠ postId)
    waiting := c.waiting.filter (fun e => e.1 ≠ postId)
    interactionQueue := c.interactionQueue ++ waiters }

/-- The interaction ids registered as waiting on a given post id. -/
def waitingOn (c : DepCache) (postId : Nat) : List Nat :=
  (c.waiting.lookup postId).getD []

/-! ## Discovery worker and dedup filter -/

/-- Discovery-relevant state: the set of content ids already known to
the Store, and the log of every enqueue event ever performed. -/
structure DiscoveryState where
  store : List Nat
  enqueueLog : List Nat

/-- Modelled from the spec: handling of one discovered candidate item.
An id already known to the Store is filtered out; a new id is
persisted (initial state on discovery is `pending`) and enqueued.  The
Python discovery worker is not in the documentation tree. -/
def discoverItem (s : DiscoveryState) (id : Nat) : DiscoveryState :=
  if id ∈ s.store then s
  else { store := id :: s.store, enqueueLog := s.enqueueLog ++ [id] }

/-- One discovery cycle over a list of candidate content ids. -/
def discoverCycle (s : DiscoveryState) (candidates : List Nat) : DiscoveryState :=
  candidates.foldl discoverItem s

/-- Repeated discovery cycles starting from an empty Store. -/
def runDiscovery (cycles : List (List Nat)) : DiscoveryState :=
  cycles.foldl discoverCycle { store := [], enqueueLog := [] }

/-! ## Scoring: engagement factor and aggregation -/

/-- Engagement base score from the scoring formula of docs/index.md:
1 engagement gives 1.0 points, 2 engagements give 1.7 points, 3 or
more give 2.0 points; no engagement gives nothing. -/
def baseScore : Nat → ℚ
  | 0 => 0
  | 1 => 1
  | 2 => 17 / 10
  | _ + 3 => 2

/-- Per-interaction engagement base: the base score divided by the
total number of engagements of the account (docs/index.md: "then
divided by total engagements per account"). -/
def perInteractionBase (n : Nat) : ℚ :=
  baseScore n / n

/-- Total engagement contribution of one interacting account toward
one node when it has `n` qualifying interactions: each of the `n`
interactions carries the per-interaction base. -/
def totalEngagement (n : Nat) : ℚ :=
  n * perInteractionBase n

/-- One accepted interaction as seen by the score aggregator: target
node, interacting account, and the three configured multipliers
(interaction-type weight, author-influence weight, topic weight). -/
structure ScoredInteraction where
  node : Nat
  account : Nat
  typeWeight : ℚ
  influence : ℚ
  topicWeight : ℚ
deriving DecidableEq, Repr

/-- Number of qualifying interactions the given interacting account
has contributed toward the given target node within the snapshot. -/
def engagementCount (snapshot : List ScoredInteraction) (account node : Nat) : Nat :=
  (snapshot.filter (fun i => i.account == account && i.node == node)).length

/-- Modelled from the spec: per-interaction raw score, the product of
the engagement factor (per-interaction base at the account-to-node
engagement count), the interaction-type weight, the author-influence
weight and the topic weight (docs/index.md scoring formula).  The
Python aggregator is not in the documentation tree. -/
def rawScore (snapshot : List ScoredInteraction) (i : ScoredInteraction) : ℚ :=
  perInteractionBase (engagementCount snapshot i.account i.node)
    * i.typeWeight * i.influence * i.topicWeight

/-- Sum of raw scores of the snapshot interactions targeting node `n`. -/
def nodeScore (snapshot : List ScoredInteraction) (n : Nat) : ℚ :=
  ((snapshot.filter (fun i => i.node == n)).map (rawScore snapshot)).sum

/-- The distinct target nodes appearing in the snapshot. -/
def nodesOf (snapshot : List ScoredInteraction) : List Nat :=
  (snapshot.map (fun i => i.node)).dedup

/-- Sum of the per-node scores over the distinct nodes. -/
def totalScore (snapshot : List ScoredInteraction) : ℚ :=
  ((nodesOf snapshot).map (nodeScore snapshot)).sum

/-- Modelled from the spec: normalization of `node_scores` into the
final weight vector by dividing each per-node score by the sum. -/
def normalizedWeights (snapshot : List ScoredInteraction) : List (Nat × ℚ) :=
  (nodesOf snapshot).map (fun n => (n, nodeScore snapshot n / totalScore snapshot))

/-! ## EMA smoothing of submitted weights -/

/-- Modelled from the spec: exponential-moving-average update of the
per-node scores; the previous EMA state is the `ema_scores` field
persisted in VALIDATOR_STATE (docs/dev/db_schema.md), and the README
states that miner scores are calculated using an EMA.  The Python
score-calculation code is not in the documentation tree. -/
def emaUpdate (alpha : ℚ) (prev current : Nat → ℚ) : Nat → ℚ :=
  fun n => alpha * current n + (1 - alpha) * prev n

/-- Weights submitted to the ledger for the given node ids: the EMA of
the node scores of the current snapshot against the persisted prior
EMA state, normalized by the sum over the node ids. -/
def submittedWeights (alpha : ℚ) (prev : Nat → ℚ)
    (snapshot : List ScoredInteraction) (nodes : List Nat) : List (Nat × ℚ) :=
  let scores := emaUpdate alpha prev (nodeScore snapshot)
  let total := (nodes.map scores).sum
  nodes.map (fun n => (n, scores n / total))

/-! ## Bounded retries against the judgment service -/

/-- Modelled from the spec: attempt the judgment-service call starting
at attempt index `i` with `fuel` attempts remaining, returning the
first success or an error once every attempt has failed.  The Python
retry loop of the processing worker is not in the documentation tree. -/
def attemptFrom (call : Nat → Except String ProcessingStatus) (i fuel : Nat) :
    Except String ProcessingStatus :=
  match fuel with
  | 0 => .error "retries exhausted"
  | f + 1 =>
    match call i with
    | .ok v => .ok v
    | .error _ => attemptFrom call (i + 1) f

/-- Terminal status persisted for a Post after running its pipeline
with a bounded number of retries: the pipeline verdict on success, the
terminal status `error` once retries are exhausted. -/
def processPostStatus (attempts : Nat)
    (call : Nat → Except String ProcessingStatus) : ProcessingStatus :=
  match attemptFrom call 0 attempts with
  | .ok st => st
  | .error _ => .error

/-! ## Verified-author filter for interaction analysis -/

/-- One discovered interaction as seen by interaction analysis: its
id, its author account id, whether its content is positive, and
whether its target post was accepted. -/
structure DiscoveredInteraction where
  interactionId : Nat
  author : Nat
  positive : Bool
  parentAccepted : Bool
deriving DecidableEq, Repr

/-- The `verified_author` flag of an interaction: whether its author
account is on the validator list of verified users. -/
def verifiedAuthor (verifiedUsers : List Nat) (i : DiscoveredInteraction) : Bool :=
  i.author ∈ verifiedUsers

/-- Modelled from the spec: interaction analysis keeps only
interactions originating from the list of verified users (README step
3 and the `verified_author` field of docs/dev/db_schema.md); the
filtered interactions are what sentiment evaluation and scoring see.
The Python interaction-analysis code is not in the documentation
tree. -/
def analysisInput (verifiedUsers : List Nat)
    (inters : List DiscoveredInteraction) : List DiscoveredInteraction :=
  inters.filter (verifiedAuthor verifiedUsers)

/-- Discovery invariant: every id was enqueued at most once, and every
enqueued id is known to the Store. -/
def DiscoveryState.Inv (s : DiscoveryState) : Prop :=
  ∀ id, s.enqueueLog.count id ≤ 1 ∧ (id ∈ s.enqueueLog → id ∈ s.store)

/-- Inductive invariant of the validator machine: a terminal
interaction has a terminal parent post; whenever the parent post is
`rejected` or `error` the interaction is still pending or already
`rejected` and its content evaluation was never invoked; and the
interaction pipeline runs only under an `accepted` parent. -/
def InterInv (tgt : Nat → Nat) (s : ValState) : Prop :=
  ∀ i,
    ((s.interStatus i).isTerminal = true → (s.postStatus (tgt i)).isTerminal = true) ∧
    ((s.postStatus (tgt i) = .rejected ∨ s.postStatus (tgt i) = .error) →
      (s.interStatus i = .pending ∨ s.interStatus i = .rejected) ∧ i ∉ s.evals) ∧
    (i ∈ s.evals → s.postStatus (tgt i) = .accepted)

/-! ## Helper lemmas -/

theorem baseScore_nonneg (n : Nat) : 0 ≤ baseScore n := by
  match n with
  | 0 => norm_num [baseScore]
  | 1 => norm_num [baseScore]
  | 2 => norm_num [baseScore]
  | m + 3 => norm_num [baseScore]

theorem baseScore_le_two (n : Nat) : baseScore n ≤ 2 := by
  match n with
  | 0 => norm_num [baseScore]
  | 1 => norm_num [baseScore]
  | 2 => norm_num [baseScore]
  | m + 3 => norm_num [baseScore]

theorem baseScore_saturated (n : Nat) (h : 3 ≤ n) : baseScore n = 2 := by
  match n, h with
  | m + 3, _ => rfl

theorem discoverItem_inv (s : DiscoveryState) (c : Nat) (h : s.Inv) :
    (discoverItem s c).Inv := by
  unfold discoverItem
  split
  · exact h
  · rename_i hni
    intro id
    constructor
    · rw [List.count_append]
      by_cases hid : id = c
      · subst hid
        have hnotin : id ∉ s.enqueueLog := fun hm => hni ((h id).2 hm)
        simp [List.count_eq_zero.mpr hnotin]
      · have hz : List.count id [c] = 0 := by
          rw [List.count_eq_zero]
          simp [hid]
        rw [hz]
        simpa using (h id).1
    · intro hm
      rcases List.mem_append.mp hm with hl | hr
      · exact List.mem_cons_of_mem _ ((h id).2 hl)
      · simp only [List.mem_singleton] at hr
        subst hr
        exact List.mem_cons_self _ _

theorem discoverCycle_inv (candidates : List Nat) (s : DiscoveryState) (h : s.Inv) :
    (discoverCycle s candidates).Inv := by
  induction candidates generalizing s with
  | nil => exact h
  | cons c rest ih => exact ih (discoverItem s c) (discoverItem_inv s c h)

theorem runDiscovery_inv (cycles : List (List Nat)) : (runDiscovery cycles).Inv := by
  have hstart : DiscoveryState.Inv { store := [], enqueueLog := [] } := by
    intro id
    simp
  unfold runDiscovery
  generalize hs : ({ store := [], enqueueLog := [] } : DiscoveryState) = s0
  rw [hs] at hstart
  clear hs
  induction cycles generalizing s0 with
  | nil => exact hstart
  | cons c rest ih => exact ih (discoverCycle s0 c) (discoverCycle_inv c s0 hstart)

theorem pipelineRunAux_all_accept {α : Type} (ps : List (Processor α))
    (acc : ProcessingResult α) (idx : Nat)
    (hacc : acc.status = .accepted) (h : allAccept ps acc.output = true) :
    (pipelineRunAux ps acc idx).1.status = .accepted ∧
    (pipelineRunAux ps acc idx).1.output = threadOutput ps acc.output ∧
    (pipelineRunAux ps acc idx).2 = List.range' idx ps.length := by
  induction ps generalizing acc idx with
  | nil => exact ⟨hacc, rfl, rfl⟩
  | cons p rest ih =>
    rw [allAccept] at h
    rw [Bool.and_eq_true] at h
    have hp : (p acc.output).status = .accepted := by
      have := h.1
      simpa using this
    have hrest := h.2
    rw [pipelineRunAux]
    rw [if_pos hp]
    have := ih (p acc.output) (idx + 1) hp hrest
    dsimp only
    refine ⟨this.1, ?_, ?_⟩
    · rw [this.2.1]
      rfl
    · rw [this.2.2]
      rfl

theorem pipelineRunAux_reject {α : Type} (front : List (Processor α)) (p : Processor α)
    (back : List (Processor α)) (acc : ProcessingResult α) (idx : Nat)
    (hacc : acc.status = .accepted)
    (hfront : allAccept front acc.output = true)
    (hp : (p (threadOutput front acc.output)).status ≠ .accepted) :
    pipelineRunAux (front ++ p :: back) acc idx =
      (p (threadOutput front acc.output), List.range' idx (front.length + 1)) := by
  induction front generalizing acc idx with
  | nil =>
    rw [List.nil_append, pipelineRunAux]
    simp only [threadOutput, List.foldl_nil] at hp ⊢
    simp [hp]
  | cons q rest ih =>
    rw [allAccept, Bool.and_eq_true] at hfront
    have hq : (q acc.output).status = .accepted := by
      have := hfront.1
      simpa using this
    have hrest := hfront.2
    have hthread : threadOutput (q :: rest) acc.output = threadOutput rest ((q acc.output).output) := rfl
    rw [hthread] at hp
    rw [List.cons_append, pipelineRunAux]
    rw [if_pos hq]
    rw [ih (q acc.output) (idx + 1) hq hrest hp]
    rfl

/-! ## Claim theorems -/

/-- C2: processors run in registration order and the pipeline
short-circuits: when every processor of `front` accepts and `p`
returns a non-accepting result on the threaded output, the pipeline
over `front ++ p :: back` returns exactly the result of `p` (its
status and reason included) and the invocation trace covers exactly
the processors before and including `p`, so later processors are never
invoked; when all processors accept, the pipeline result is accepted,
its output accumulates each processor contribution, and the trace
covers every processor in registration order. -/
theorem pipeline_short_circuit :
    (∀ {α : Type} (front : List (Processor α)) (p : Processor α)
      (back : List (Processor α)) (input : α),
      allAccept front input = true →
      (p (threadOutput front input)).status ≠ .accepted →
      pipelineProcess (front ++ p :: back) input =
        (p (threadOutput front input), List.range (front.length + 1))) ∧
    (∀ {α : Type} (ps : List (Processor α)) (input : α),
      allAccept ps input = true →
      (pipelineProcess ps input).1.status = .accepted ∧
      (pipelineProcess ps input).1.output = threadOutput ps input ∧
      (pipelineProcess ps input).2 = List.range ps.length) := by
  constructor
  · intro α front p back input hfront hp
    rw [pipelineProcess, List.range_eq_range']
    exact pipelineRunAux_reject front p back ⟨.accepted, "", input⟩ 0 rfl hfront hp
  · intro α ps input h
    rw [pipelineProcess, List.range_eq_range']
    exact pipelineRunAux_all_accept ps ⟨.accepted, "", input⟩ 0 rfl h

/-- C2 witness: a two-processor pipeline where the first processor
rejects returns the first processor result with its reason, and the
second processor is never invoked. -/
theorem pipeline_short_circuit_witness :
    pipelineProcess
        [fun n => (⟨.rejected, "quality failed", n⟩ : ProcessingResult Nat),
         fun n => (⟨.accepted, "ok", n + 1⟩ : ProcessingResult Nat)] 0 =
      (⟨.rejected, "quality failed", 0⟩, [0]) := by
  have h := pipeline_short_circuit.1 ([] : List (Processor Nat))
      (fun n => (⟨.rejected, "quality failed", n⟩ : ProcessingResult Nat))
      [fun n => (⟨.accepted, "ok", n + 1⟩ : ProcessingResult Nat)] 0 rfl (by decide)
  simpa using h

theorem isTerminal_false_iff (st : ProcessingStatus) :
    st.isTerminal = false ↔ st = .pending := by
  cases st <;> simp [ProcessingStatus.isTerminal]

theorem interactionStepOutcome_parent_terminal {p e r : ProcessingStatus} {b : Bool}
    (h : interactionStepOutcome p e = some (r, b)) : p.isTerminal = true := by
  cases p <;> simp [interactionStepOutcome, ProcessingStatus.isTerminal] at h ⊢

theorem interactionStepOutcome_eval_invoked {p e r : ProcessingStatus}
    (h : interactionStepOutcome p e = some (r, true)) : p = .accepted := by
  cases p <;> simp [interactionStepOutcome] at h ⊢

theorem interactionStepOutcome_parent_bad {p e r : ProcessingStatus} {b : Bool}
    (hp : p = .rejected ∨ p = .error)
    (h : interactionStepOutcome p e = some (r, b)) : r = .rejected ∧ b = false := by
  rcases hp with hp | hp <;> subst hp <;>
    simpa [interactionStepOutcome] using h.symm

theorem mem_of_mem_ite_cons {i i0 : Nat} {l : List Nat} {b : Bool}
    (hii : i ≠ i0) (hmem : i ∈ (if b then i0 :: l else l)) : i ∈ l := by
  cases b
  · simpa using hmem
  · simp only [if_pos] at hmem
    rcases List.mem_cons.mp hmem with h1 | h1
    · exact absurd h1 hii
    · exact h1

theorem interInv_of_reachable (tgt : Nat → Nat) (s : ValState)
    (h : Reachable tgt s) : InterInv tgt s := by
  induction h with
  | start =>
    intro i
    refine ⟨?_, ?_, ?_⟩ <;> simp [startState, ProcessingStatus.isTerminal]
  | step hr hstep ih =>
    rename_i u t
    cases hstep with
    | post_resolve p st s0 hpending hterm =>
      intro i
      dsimp only
      by_cases hip : tgt i = p
      · rw [if_pos hip]
        refine ⟨fun _ => hterm, ?_, ?_⟩
        · intro _
          have hpend : u.interStatus i = .pending := by
            by_cases ht : (u.interStatus i).isTerminal = true
            · have hold := (ih i).1 ht
              rw [hip, hpending] at hold
              simp [ProcessingStatus.isTerminal] at hold
            · have hf : (u.interStatus i).isTerminal = false := by
                revert ht
                cases (u.interStatus i).isTerminal <;> simp
              exact (isTerminal_false_iff _).mp hf
          refine ⟨Or.inl hpend, ?_⟩
          intro hmem
          have hold := (ih i).2.2 hmem
          rw [hip, hpending] at hold
          exact ProcessingStatus.noConfusion hold
        · intro hmem
          have hold := (ih i).2.2 hmem
          rw [hip, hpending] at hold
          exact ProcessingStatus.noConfusion hold
      · rw [if_neg hip]
        exact ih i
    | inter_resolve i0 evalStatus res inv s0 hpending hterm hout =>
      intro i
      dsimp only
      by_cases hii : i = i0
      · subst hii
        rw [if_pos rfl]
        refine ⟨fun _ => interactionStepOutcome_parent_terminal hout, ?_, ?_⟩
        · intro hbad
          have hrb := interactionStepOutcome_parent_bad hbad hout
          refine ⟨Or.inr hrb.1, ?_⟩
          rw [hrb.2]
          simp only [Bool.false_eq_true, if_false]
          exact ((ih i).2.1 hbad).2
        · intro hmem
          cases hinv : inv with
          | false =>
            rw [hinv] at hmem
            simp only [Bool.false_eq_true, if_false] at hmem
            exact (ih i).2.2 hmem
          | true =>
            exact interactionStepOutcome_eval_invoked (hinv ▸ hout)
      · rw [if_neg hii]
        refine ⟨fun ht => (ih i).1 ht, ?_, ?_⟩
        · intro hbad
          have hold := (ih i).2.1 hbad
          exact ⟨hold.1, fun hmem => hold.2 (mem_of_mem_ite_cons hii hmem)⟩
        · intro hmem
          exact (ih i).2.2 (mem_of_mem_ite_cons hii hmem)

/-- C1: in every reachable state of the validator machine, an
Interaction reaches a terminal processing status only after its target
Post has a terminal status; and whenever the target Post is `rejected`
or `error`, the Interaction, if resolved, is resolved to `rejected`
and its content evaluation (interaction pipeline) was never invoked,
regardless of the interaction content. -/
theorem interaction_terminal_after_parent (tgt : Nat → Nat) (s : ValState)
    (h : Reachable tgt s) (i : Nat) :
    ((s.interStatus i).isTerminal = true → (s.postStatus (tgt i)).isTerminal = true) ∧
    ((s.postStatus (tgt i) = .rejected ∨ s.postStatus (tgt i) = .error) →
      ((s.interStatus i).isTerminal = true → s.interStatus i = .rejected) ∧
        i ∉ s.evals) := by
  have hinv := interInv_of_reachable tgt s h i
  refine ⟨hinv.1, ?_⟩
  intro hbad
  have hold := hinv.2.1 hbad
  refine ⟨?_, hold.2⟩
  intro hterm
  rcases hold.1 with hp | hp
  · rw [hp] at hterm
    simp [ProcessingStatus.isTerminal] at hterm
  · exact hp

/-- C1 witness: the theorem applied to a concrete reachable state, the
start state of a system where every interaction targets post 0. -/
theorem interaction_terminal_after_parent_witness :
    ((startState.interStatus 0).isTerminal = true →
      (startState.postStatus 0).isTerminal = true) ∧
    ((startState.postStatus 0 = .rejected ∨ startState.postStatus 0 = .error) →
      ((startState.interStatus 0).isTerminal = true →
        startState.interStatus 0 = .rejected) ∧ 0 ∉ startState.evals) :=
  interaction_terminal_after_parent (fun _ => 0) startState Reachable.start 0

/-- C4: across every sequence of discovery cycles, each content id is
enqueued at most once in total: the dedup filter drops any id already
known to the Store, so discovery is idempotent across cycles. -/
theorem discovery_enqueues_at_most_once (cycles : List (List Nat)) (id : Nat) :
    (runDiscovery cycles).enqueueLog.count id ≤ 1 :=
  (runDiscovery_inv cycles id).1

/-- C5: the engagement factor follows the documented schedule (1 gives
1.0, 2 gives 1.7, 3 or more give 2.0), is monotonically non-decreasing
and saturating in the interaction count, and the total engagement
contribution of one interacting account toward one node never exceeds
the cap of 2.0 for any number of interactions. -/
theorem engagement_factor_saturating_capped :
    baseScore 1 = 1 ∧ baseScore 2 = 17 / 10 ∧
    (∀ n, 3 ≤ n → baseScore n = 2) ∧
    (∀ n, baseScore n ≤ baseScore (n + 1)) ∧
    (∀ n, totalEngagement n ≤ 2) := by
  refine ⟨rfl, rfl, baseScore_saturated, ?_, ?_⟩
  · intro n
    match n with
    | 0 => norm_num [baseScore]
    | 1 => norm_num [baseScore]
    | 2 => norm_num [baseScore]
    | m + 3 => norm_num [baseScore]
  · intro n
    unfold totalEngagement perInteractionBase
    match n with
    | 0 => norm_num
    | m + 1 =>
      have hne : ((m + 1 : Nat) : ℚ) ≠ 0 := by
        push_cast
        positivity
      rw [mul_comm, div_mul_cancel₀ _ hne]
      exact baseScore_le_two (m + 1)

/-- C5 witness: the schedule and the cap evaluated at seven
interactions from one account. -/
theorem engagement_factor_saturating_capped_witness :
    baseScore 7 = 2 ∧ totalEngagement 7 ≤ 2 :=
  ⟨engagement_factor_saturating_capped.2.2.1 7 (by norm_num),
   engagement_factor_saturating_capped.2.2.2.2 7⟩

/-- C8: the engagement base score is divided by the account total
engagement count before being multiplied by the interaction weight,
user influence and topic weight; interactions of the same account
toward the same node carry an equal per-interaction base; and adding
interactions beyond the cap strictly decreases the per-interaction
base. -/
theorem per_interaction_engagement_base :
    (∀ n, perInteractionBase n = baseScore n / n) ∧
    (∀ snapshot (i : ScoredInteraction), i ∈ snapshot →
      rawScore snapshot i =
        baseScore (engagementCount snapshot i.account i.node) /
          (engagementCount snapshot i.account i.node)
          * i.typeWeight * i.influence * i.topicWeight) ∧
    (∀ snapshot (i j : ScoredInteraction), i ∈ snapshot → j ∈ snapshot →
      i.account = j.account → i.node = j.node →
      perInteractionBase (engagementCount snapshot i.account i.node) =
        perInteractionBase (engagementCount snapshot j.account j.node)) ∧
    (∀ n, 3 ≤ n → perInteractionBase (n + 1) < perInteractionBase n) := by
  refine ⟨fun n => rfl, fun snapshot i _ => rfl, ?_, ?_⟩
  · intro snapshot i j _ _ hacc hnode
    rw [hacc, hnode]
  · intro n hn
    have h1 : perInteractionBase n = 2 / (n : ℚ) := by
      unfold perInteractionBase
      rw [baseScore_saturated n hn]
    have h2 : perInteractionBase (n + 1) = 2 / ((n : ℚ) + 1) := by
      unfold perInteractionBase
      rw [baseScore_saturated (n + 1) (by omega)]
      push_cast
      ring
    rw [h1, h2]
    have hnpos : (0 : ℚ) < n := by
      have : (3 : ℚ) ≤ n := by exact_mod_cast hn
      linarith
    exact div_lt_div_of_pos_left (by norm_num) hnpos (by linarith)

/-- C8 witness: the per-interaction base strictly decreases from three
to four interactions. -/
theorem per_interaction_engagement_base_witness :
    perInteractionBase 4 < perInteractionBase 3 := by
  have h := per_interaction_engagement_base.2.2.2 3 (by norm_num)
  exact h

theorem lookup_filter_ne {β : Type} (l : List (Nat × β)) (k : Nat) :
    (l.filter (fun e => e.1 ≠ k)).lookup k = none := by
  induction l with
  | nil => rfl
  | cons e rest ih =>
    obtain ⟨a, b⟩ := e
    rw [List.filter_cons]
    by_cases he : a = k
    · have hc : (decide ((a, b).1 ≠ k)) = false := by
        simp [he]
      rw [hc]
      simpa using ih
    · have hc : (decide ((a, b).1 ≠ k)) = true := by
        simp [he]
      rw [hc]
      have hk : (k == a) = false := by
        simp [Ne.symm he]
      simp [List.lookup, hk, ih]
      intro x y hmem hxk hky
      exact hxk hky.symm

/-- C3: after `recordPostResult(post_id, status, output)`, the outcome
is present in the processed-post cache at `post_id`, every interaction
id that was waiting on `post_id` has been resubmitted to the
Interaction Queue exactly once, and the waiting entry for `post_id` is
empty. -/
theorem recordPostResult_spec (postId : Nat) (status : ProcessingStatus)
    (output : List String) (c : DepCache)
    (hnd : (waitingOn c postId).Nodup) :
    ((recordPostResult postId status output c).processedPosts.lookup postId
        = some (status, output)) ∧
    (∀ iid ∈ waitingOn c postId,
      (recordPostResult postId status output c).interactionQueue.count iid =
        c.interactionQueue.count iid + 1) ∧
    waitingOn (recordPostResult postId status output c) postId = [] := by
  refine ⟨?_, ?_, ?_⟩
  · simp [recordPostResult, List.lookup]
  · intro iid hmem
    show (c.interactionQueue ++ waitingOn c postId).count iid = _
    rw [List.count_append, List.count_eq_one_of_mem hnd hmem]
  · show ((c.waiting.filter (fun e => e.1 ≠ postId)).lookup postId).getD [] = []
    rw [lookup_filter_ne]
    rfl

/-- C3 witness: recording an accepted post with two waiting
interactions resubmits both and clears the waiting entry. -/
theorem recordPostResult_spec_witness :
    ((recordPostResult 3 .accepted ["governance"]
        ⟨[], [(3, [10, 11])], [9]⟩).processedPosts.lookup 3
        = some (.accepted, ["governance"])) ∧
    (∀ iid ∈ waitingOn ⟨[], [(3, [10, 11])], [9]⟩ 3,
      (recordPostResult 3 .accepted ["governance"]
          ⟨[], [(3, [10, 11])], [9]⟩).interactionQueue.count iid =
        (⟨[], [(3, [10, 11])], [9]⟩ : DepCache).interactionQueue.count iid + 1) ∧
    waitingOn (recordPostResult 3 .accepted ["governance"]
        ⟨[], [(3, [10, 11])], [9]⟩) 3 = [] :=
  recordPostResult_spec 3 .accepted ["governance"] ⟨[], [(3, [10, 11])], [9]⟩
    (by decide)

theorem perInteractionBase_nonneg (n : Nat) : 0 ≤ perInteractionBase n :=
  div_nonneg (baseScore_nonneg n) (Nat.cast_nonneg n)

theorem rawScore_nonneg (snapshot : List ScoredInteraction) (i : ScoredInteraction)
    (h1 : 0 ≤ i.typeWeight) (h2 : 0 ≤ i.influence) (h3 : 0 ≤ i.topicWeight) :
    0 ≤ rawScore snapshot i :=
  mul_nonneg (mul_nonneg (mul_nonneg
    (perInteractionBase_nonneg (engagementCount snapshot i.account i.node)) h1) h2) h3

theorem nodeScore_nonneg (snapshot : List ScoredInteraction)
    (h : ∀ i ∈ snapshot, 0 ≤ i.typeWeight ∧ 0 ≤ i.influence ∧ 0 ≤ i.topicWeight)
    (n : Nat) : 0 ≤ nodeScore snapshot n := by
  apply List.sum_nonneg
  intro x hx
  rw [List.mem_map] at hx
  obtain ⟨i, hi, rfl⟩ := hx
  have hmem := List.mem_of_mem_filter hi
  exact rawScore_nonneg _ _ (h i hmem).1 (h i hmem).2.1 (h i hmem).2.2

theorem list_sum_map_div (l : List Nat) (f : Nat → ℚ) (T : ℚ) :
    (l.map (fun n => f n / T)).sum = (l.map f).sum / T := by
  induction l with
  | nil => simp
  | cons a rest ih => simp [ih, add_div]

/-- C6: score aggregation over a fixed snapshot is a pure function of
the snapshot (hence reproducible across runs); with nonnegative
configured weights and a positive total, every normalized weight lies
in [0,1] and the weights sum exactly to 1. -/
theorem aggregation_weights_normalized (snapshot : List ScoredInteraction)
    (hnn : ∀ i ∈ snapshot, 0 ≤ i.typeWeight ∧ 0 ≤ i.influence ∧ 0 ≤ i.topicWeight)
    (hpos : 0 < totalScore snapshot) :
    (∀ p ∈ normalizedWeights snapshot, 0 ≤ p.2 ∧ p.2 ≤ 1) ∧
    ((normalizedWeights snapshot).map (fun p => p.2)).sum = 1 := by
  constructor
  · intro p hp
    rw [normalizedWeights, List.mem_map] at hp
    obtain ⟨n, hn, rfl⟩ := hp
    dsimp only
    constructor
    · exact div_nonneg (nodeScore_nonneg snapshot hnn n) (le_of_lt hpos)
    · rw [div_le_one hpos]
      show nodeScore snapshot n ≤ ((nodesOf snapshot).map (nodeScore snapshot)).sum
      apply List.single_le_sum
      · intro x hx
        rw [List.mem_map] at hx
        obtain ⟨m, hm, rfl⟩ := hx
        exact nodeScore_nonneg snapshot hnn m
      · exact List.mem_map_of_mem _ hn
  · rw [normalizedWeights, List.map_map]
    have hcomp : ((fun p => p.2) ∘ fun n => (n, nodeScore snapshot n / totalScore snapshot))
        = fun n => nodeScore snapshot n / totalScore snapshot := rfl
    rw [hcomp, list_sum_map_div]
    show totalScore snapshot / totalScore snapshot = 1
    exact div_self (ne_of_gt hpos)

/-- C6 witness: a two-node snapshot with unit weights produces weights
in [0,1] summing to 1. -/
theorem aggregation_weights_normalized_witness :
    (∀ p ∈ normalizedWeights [⟨0, 10, 1, 1, 1⟩, ⟨1, 11, 1, 2, 1⟩], 0 ≤ p.2 ∧ p.2 ≤ 1) ∧
    ((normalizedWeights [⟨0, 10, 1, 1, 1⟩, ⟨1, 11, 1, 2, 1⟩]).map (fun p => p.2)).sum = 1 :=
  aggregation_weights_normalized [⟨0, 10, 1, 1, 1⟩, ⟨1, 11, 1, 2, 1⟩]
    (by decide)
    (by norm_num +decide [totalScore, nodesOf, nodeScore, rawScore, engagementCount,
      perInteractionBase, baseScore, List.dedup, List.filter_cons, List.filter_nil])

theorem attemptFrom_all_fail (call : Nat → Except String ProcessingStatus) (i fuel : Nat)
    (h : ∀ k, k < fuel → ∃ e, call (i + k) = .error e) :
    ∃ e, attemptFrom call i fuel = .error e := by
  induction fuel generalizing i with
  | zero => exact ⟨"retries exhausted", rfl⟩
  | succ f ih =>
    obtain ⟨e0, he0⟩ := h 0 (Nat.succ_pos f)
    rw [Nat.add_zero] at he0
    rw [attemptFrom, he0]
    refine ih (i + 1) ?_
    intro k hk
    obtain ⟨e, he⟩ := h (k + 1) (by omega)
    refine ⟨e, ?_⟩
    have harith : i + 1 + k = i + (k + 1) := by omega
    rw [harith]
    exact he

/-- C7: when the judgment-service call fails on every one of the
bounded retries, the Post is persisted with terminal status `error`;
any dependent interaction is then resolved (not deferred) to
`rejected` without invoking content evaluation, and the resolution is
never `accepted`, so the post contributes nothing to the accepted
snapshot used by score aggregation. -/
theorem oracle_exhaustion_yields_error (attempts : Nat)
    (call : Nat → Except String ProcessingStatus)
    (h : ∀ k, k < attempts → ∃ e, call k = Except.error e) :
    processPostStatus attempts call = .error ∧
    (∀ evalStatus, interactionStepOutcome .error evalStatus = some (.rejected, false)) ∧
    (∀ evalStatus res inv,
      interactionStepOutcome .error evalStatus = some (res, inv) → res ≠ .accepted) := by
  obtain ⟨e, he⟩ := attemptFrom_all_fail call 0 attempts (fun k hk => by simpa using h k hk)
  refine ⟨?_, fun _ => rfl, ?_⟩
  · rw [processPostStatus, he]
  · intro evalStatus res inv hout
    simp only [interactionStepOutcome, Option.some.injEq, Prod.mk.injEq] at hout
    rw [← hout.1]
    simp

/-- C7 witness: three failing attempts against an unreachable oracle
leave the post in status `error` and dependent interactions
rejected. -/
theorem oracle_exhaustion_yields_error_witness :
    processPostStatus 3 (fun _ => Except.error "oracle unreachable") = .error ∧
    (∀ evalStatus, interactionStepOutcome .error evalStatus = some (.rejected, false)) ∧
    (∀ evalStatus res inv,
      interactionStepOutcome .error evalStatus = some (res, inv) → res ≠ .accepted) :=
  oracle_exhaustion_yields_error 3 (fun _ => Except.error "oracle unreachable")
    (fun _ _ => ⟨"oracle unreachable", rfl⟩)

/-- C9: the weights submitted to the ledger are not a pure function of
the current scoring window: with the same snapshot but two different
persisted EMA states, the submitted weight vectors differ. -/
theorem submitted_weights_depend_on_ema_state :
    submittedWeights (1 / 2) (fun _ => 0) [⟨0, 5, 1, 1, 1⟩] [0, 1] ≠
      submittedWeights (1 / 2) (fun n => if n = 1 then 1 else 0)
        [⟨0, 5, 1, 1, 1⟩] [0, 1] := by
  have h1 : submittedWeights (1 / 2) (fun _ => 0) [⟨0, 5, 1, 1, 1⟩] [0, 1]
      = [(0, 1), (1, 0)] := by
    norm_num +decide [submittedWeights, emaUpdate, nodeScore, rawScore, engagementCount,
      perInteractionBase, baseScore, List.filter_cons, List.filter_nil]
  have h2 : submittedWeights (1 / 2) (fun n => if n = 1 then 1 else 0)
      [⟨0, 5, 1, 1, 1⟩] [0, 1] = [(0, 1 / 2), (1, 1 / 2)] := by
    norm_num +decide [submittedWeights, emaUpdate, nodeScore, rawScore, engagementCount,
      perInteractionBase, baseScore, List.filter_cons, List.filter_nil]
  rw [h1, h2]
  intro h
  simp only [List.cons.injEq, Prod.mk.injEq] at h
  exact absurd h.1.2 (by norm_num)

/-- C10: interaction analysis sees only interactions whose author is
on the validator list of verified users; an interaction from an
unverified author is filtered out before sentiment evaluation and
scoring even when it is positive and its target post is accepted. -/
theorem unverified_authors_filtered (verifiedUsers : List Nat)
    (inters : List DiscoveredInteraction) (i : DiscoveredInteraction) :
    (i ∈ analysisInput verifiedUsers inters → i.author ∈ verifiedUsers) ∧
    (i.author ∉ verifiedUsers → i ∈ inters → i.positive = true →
      i.parentAccepted = true → i ∉ analysisInput verifiedUsers inters) := by
  constructor
  · intro hmem
    have hf := List.of_mem_filter hmem
    rw [verifiedAuthor] at hf
    exact of_decide_eq_true hf
  · intro hnv _ _ _ hmem
    have hf := List.of_mem_filter hmem
    rw [verifiedAuthor] at hf
    exact hnv (of_decide_eq_true hf)

/-- C10 witness: a positive interaction on an accepted post from an
unverified author (account 7, verified list [1, 2]) is excluded from
analysis. -/
theorem unverified_authors_filtered_witness :
    (⟨42, 7, true, true⟩ : DiscoveredInteraction) ∉
      analysisInput [1, 2] [⟨42, 7, true, true⟩] :=
  (unverified_authors_filtered [1, 2] [⟨42, 7, true, true⟩] ⟨42, 7, true, true⟩).2
    (by decide) (by decide) rfl rfl

end Nuance
